import Mathlib

/-!
Shallow embedding of the semantic Markdown chunker
(`scripts/chunker.py` of atedays1/ate-days-homebase).

Strings are modelled as `List Char`.  Python `int` sizes are modelled as `ℕ`
(the configuration fields are non-negative in every relevant execution; the
guard `chunk_overlap <= 0` of `_apply_overlap` becomes `chunk_overlap = 0`).
-/

namespace Chunker

/-- Python's whitespace notion for `str.strip`, `str.split` and the regex
class `\s`, restricted to the ASCII range. -/
def pyIsSpace (c : Char) : Bool :=
  c = ' ' || c = '\t' || c = '\n' || c = '\r' || c = '\x0b' || c = '\x0c'

/-- Python `str.strip()`: drop leading and trailing whitespace. -/
def pyStrip (s : List Char) : List Char :=
  ((s.dropWhile pyIsSpace).reverse.dropWhile pyIsSpace).reverse

/-- `'\n'.join`: join a list of lines with a newline separator. -/
def joinNL : List (List Char) → List Char
  | [] => []
  | [x] => x
  | x :: y :: xs => x ++ '\n' :: joinNL (y :: xs)

/-- Python `content.split('\n')`. -/
def splitLines : List Char → List (List Char)
  | [] => [[]]
  | '\n' :: r => [] :: splitLines r
  | c :: r =>
    match splitLines r with
    | [] => [[c]]
    | g :: gs => (c :: g) :: gs

/-- `content.split('\n')`, with each line tagged by whether it was followed
by a `'\n'` in the original text (needed by the table regex, whose row form
requires a trailing newline). -/
def splitLinesK : List Char → List (List Char × Bool)
  | [] => [([], false)]
  | '\n' :: r => ([], true) :: splitLinesK r
  | c :: r =>
    match splitLinesK r with
    | [] => [([c], false)]
    | g :: gs => ((c :: g.1, g.2)) :: gs

/-- Python `text.split('\n\n')` (used for paragraph splitting). -/
def splitOnNN : List Char → List (List Char)
  | [] => [[]]
  | '\n' :: '\n' :: r => [] :: splitOnNN r
  | c :: r =>
    match splitOnNN r with
    | [] => [[c]]
    | g :: gs => (c :: g) :: gs

/-- Python `sentence.split()`: split on runs of whitespace, discarding
empty pieces. -/
def wsWords (cur : List Char) : List Char → List (List Char)
  | [] => if cur = [] then [] else [cur.reverse]
  | c :: r =>
    if pyIsSpace c then
      if cur = [] then wsWords [] r else cur.reverse :: wsWords [] r
    else wsWords (c :: cur) r

def pySplitWs (s : List Char) : List (List Char) := wsWords [] s

/-- Python `overlap.find(' ')`, as an optional index. -/
def find_space : List Char → Option ℕ
  | [] => none
  | c :: r => if c = ' ' then some 0 else (find_space r).map (· + 1)

/-- The chunk-type tag `"text"`. -/
def typeText : List Char := "text".data

/-- The chunk-type tag `"table"`. -/
def typeTable : List Char := "table".data

/-- `DocumentChunk` of `chunker.py`: one unit of output.  The metadata
dictionary is opaque to the engine, so it is a type parameter `μ`. -/
structure DocumentChunk (μ : Type) where
  content : List Char
  chunk_index : ℕ
  metadata : μ
  heading_context : Option (List Char)
  chunk_type : List Char
deriving DecidableEq, Repr

/-- The configuration carried by the `SemanticChunker` class. -/
structure SemanticChunker where
  chunk_size : ℕ
  chunk_overlap : ℕ
  min_chunk_size : ℕ
  preserve_headings : Bool
  preserve_tables : Bool
  preserve_lists : Bool
deriving DecidableEq, Repr

/-- The constructor defaults of `SemanticChunker.__init__`. -/
def defaultChunker : SemanticChunker :=
  ⟨1000, 150, 100, true, true, true⟩

/-! ### Heading sectioner (`_split_by_headings`)

The heading regex is `^(#{1,6})\s+(.+)$` applied with `.match` to a single
line (the line holds no `'\n'`, so `$` is end-of-line and `.` matches every
remaining character).  The pattern matches iff the line starts with one to
six `'#'` immediately followed by a whitespace character and at least one
further character.  `group(2)` is the remainder after the maximal
whitespace run following the hashes, except that when that run reaches the
end of the line the greedy `\s+` backtracks by one character, so `group(2)`
is the final (whitespace) character. -/

/-- One section produced by `_split_by_headings`: heading text (already
stripped, or `none` before any heading) plus raw content. -/
structure DocSection where
  heading : Option (List Char)
  content : List Char
deriving DecidableEq, Repr

/-- `heading_pattern.match(line)`, returning `group(2)` on success. -/
def headingMatch (line : List Char) : Option (List Char) :=
  let hashes := line.takeWhile (· = '#')
  let rest := line.drop hashes.length
  if 1 ≤ hashes.length ∧ hashes.length ≤ 6 ∧ 2 ≤ rest.length ∧
      pyIsSpace (rest.headD 'a') then
    let t := rest.dropWhile pyIsSpace
    if t = [] then some (rest.drop (rest.length - 1)) else some t
  else none

/-- The loop of `_split_by_headings`: accumulate lines into the current
section, closing it (when it has accumulated content) at each heading
line; the heading line opens the new section. -/
def sbhAux (curH : Option (List Char)) (curC : List (List Char)) :
    List (List Char) → List DocSection
  | [] => if curC = [] then [] else [⟨curH, joinNL curC⟩]
  | line :: rest =>
    match headingMatch line with
    | some g =>
      (if curC = [] then [] else [⟨curH, joinNL curC⟩]) ++
        sbhAux (some (pyStrip g)) [line] rest
    | none => sbhAux curH (curC ++ [line]) rest

/-- `_split_by_headings`. -/
def split_by_headings (content : List Char) : List DocSection :=
  let sections := sbhAux none [] (splitLines content)
  if sections = [] then [⟨none, content⟩] else sections

/-! ### Protected-region scanner (table_pattern)

The table regex is `(\|[^\n]+\|\n)+`: one or more consecutive row units,
each of the form `'|'`, at least one non-newline character, `'|'`, `'\n'`.
A unit therefore runs from a `'|'` to the end of its line, requires that
line to end with `'|'` (immediately followed by a `'\n'`) and to hold at
least one character between the two bars; every later unit of the same
match starts right after a `'\n'`, i.e. at a line start.  `finditer` scans
left to right, taking at each position the greedy (maximal) run of units
and never overlapping matches.  This is realised below line by line. -/

/-- First position of a row-unit match inside a line: the first `'|'`
that leaves room for a nonempty body before the closing bar.  `nl` says
whether the line is followed by a `'\n'` in the scanned text. -/
def lineStartsRun (l : List Char) (nl : Bool) : Option ℕ :=
  if nl ∧ l.getLast? = some '|' then
    (l.take (l.length - 2)).findIdx? (· = '|')
  else none

/-- A line that is one whole row unit (so it extends a running match). -/
def fullQual (l : List Char) (nl : Bool) : Bool :=
  nl && l.head? = some '|' && l.getLast? = some '|' && 3 ≤ l.length

/-- The scanner/splitter core: walk the tagged lines, either accumulating
plain text (`st = none`, with `acc` the text gathered since the last
match) or extending the current greedy run of row units (`st = some run`).
Returns the alternating `(text, is_match)` parts of
`_split_around_pattern`; the `is_match = true` parts are exactly the
`finditer` matches of the table pattern. -/
def tsAux : Option (List Char) → List Char → List (List Char × Bool) →
    List (List Char × Bool)
  | some run, _, [] => [(run, true)]
  | none, acc, [] => if acc = [] then [] else [(acc, false)]
  | some run, _, (l, nl) :: rest =>
    if fullQual l nl then tsAux (some (run ++ l ++ ['\n'])) [] rest
    else
      (run, true) ::
        (match lineStartsRun l nl with
         | none => tsAux none (l ++ if nl then ['\n'] else []) rest
         | some p =>
           (if l.take p = [] then [] else [(l.take p, false)]) ++
             tsAux (some (l.drop p ++ ['\n'])) [] rest)
  | none, acc, (l, nl) :: rest =>
    match lineStartsRun l nl with
    | none => tsAux none (acc ++ l ++ if nl then ['\n'] else []) rest
    | some p =>
      (if acc ++ l.take p = [] then [] else [(acc ++ l.take p, false)]) ++
        tsAux (some (l.drop p ++ ['\n'])) [] rest

/-- `_split_around_pattern` for the table pattern. -/
def table_parts (content : List Char) : List (List Char × Bool) :=
  tsAux none [] (splitLinesK content)

/-- The `finditer` matches of the table pattern, in document order. -/
def table_matches (content : List Char) : List (List Char) :=
  (table_parts content).filterMap fun p => if p.2 then some p.1 else none

/-- The table regions of `_extract_protected_blocks` (the code-fence list
of the source is collected there too, but no claim and no other part of
the chunker reads it, so it is not modelled). -/
structure ProtectedBlocks where
  tables : List (List Char)
deriving DecidableEq, Repr

/-- `_extract_protected_blocks`, table part. -/
def extract_protected_blocks (cfg : SemanticChunker) (content : List Char) :
    ProtectedBlocks :=
  ⟨if cfg.preserve_tables then table_matches content else []⟩

/-! ### Size-bounded text splitter (`_chunk_text`, `_split_by_sentences`) -/

/-- `re.split(r'(?<=[.!?])\s+', text)`: split at each maximal whitespace
run whose preceding character is `.`, `!` or `?`; the run is consumed.
`skip` marks that the scanner is inside such a run; `prev` is the
previously read character (the lookbehind), initially a non-punctuation
sentinel since no match can start at position 0. -/
def isSentencePunct (c : Char) : Bool := c = '.' || c = '!' || c = '?'

def sentAux (skip : Bool) (prev : Char) (acc : List Char) :
    List Char → List (List Char)
  | [] => [acc.reverse]
  | c :: r =>
    if skip && pyIsSpace c then sentAux true c acc r
    else if isSentencePunct prev && pyIsSpace c then
      acc.reverse :: sentAux true c [] r
    else sentAux false c (c :: acc) r

def sentence_split (text : List Char) : List (List Char) :=
  sentAux false 'a' [] text

/-- The word loop of `_split_by_sentences` (force-splitting one oversized
sentence): greedy packing of the sentence's whitespace-split words.
Returns the flushed chunks and the running chunk left for the caller. -/
def word_pack (cfg : SemanticChunker) :
    List (List Char) → List Char → List (List Char) × List Char
  | [], cur => ([], cur)
  | w :: rest, cur =>
    if cur.length + w.length + 1 ≤ cfg.chunk_size then
      word_pack cfg rest (if cur = [] then w else cur ++ ' ' :: w)
    else
      let (e, c) := word_pack cfg rest w
      ((if cur = [] then [] else [cur]) ++ e, c)

/-- The sentence loop of `_split_by_sentences`. -/
def sentLoop (cfg : SemanticChunker) :
    List (List Char) → List Char → List (List Char)
  | [], cur => if cur = [] then [] else [cur]
  | s :: rest, cur =>
    let pot := if cur = [] then s else cur ++ ' ' :: s
    if pot.length ≤ cfg.chunk_size then sentLoop cfg rest pot
    else
      (if cur = [] then [] else [cur]) ++
        (if cfg.chunk_size < s.length then
          let ec := word_pack cfg (pySplitWs s) []
          ec.1 ++ sentLoop cfg rest ec.2
        else sentLoop cfg rest s)

/-- `_split_by_sentences`. -/
def split_by_sentences (cfg : SemanticChunker) (text : List Char) :
    List (List Char) :=
  sentLoop cfg (sentence_split text) []

/-- The paragraph loop of `_chunk_text`. -/
def chunkTextLoop (cfg : SemanticChunker) :
    List (List Char) → List Char → List (List Char)
  | [], cur => if cur = [] then [] else [cur]
  | para :: rest, cur =>
    let p := pyStrip para
    if p = [] then chunkTextLoop cfg rest cur
    else
      let pot := if cur = [] then p else cur ++ '\n' :: '\n' :: p
      if pot.length ≤ cfg.chunk_size then chunkTextLoop cfg rest pot
      else
        (if cur = [] then [] else [cur]) ++
          (if cfg.chunk_size < p.length then
            let sc := split_by_sentences cfg p
            sc.dropLast ++ chunkTextLoop cfg rest (sc.getLastD [])
          else chunkTextLoop cfg rest p)

/-- `_chunk_text`. -/
def chunk_text (cfg : SemanticChunker) (text : List Char) :
    List (List Char) :=
  if text.length ≤ cfg.chunk_size then
    if pyStrip text = [] then [] else [text]
  else chunkTextLoop cfg (splitOnNN text) []

/-! ### Section assembler (`_chunk_section`) -/

/-- `_chunk_section`: `(content, chunk_type)` pairs for one section.  The
`protected_blocks` argument of the source is accepted and, exactly as in
the source, never read: the section re-searches the table pattern on its
own content. -/
def chunk_section (cfg : SemanticChunker) (content : List Char)
    (_blocks : ProtectedBlocks) : List (List Char × List Char) :=
  if cfg.preserve_tables ∧ table_matches content ≠ [] then
    (table_parts content).flatMap fun part =>
      if part.2 then [(part.1, typeTable)]
      else (chunk_text cfg part.1).map fun c => (c, typeText)
  else (chunk_text cfg content).map fun c => (c, typeText)

/-! ### Overlap stitcher (`_apply_overlap`, `_get_overlap_text`) -/

/-- `_get_overlap_text`: the trailing `chunk_overlap` characters of
`text`, advanced past the first space when that space is at a positive
index, prefixed with the ellipsis marker; empty when `text` is no longer
than the overlap (note `text[-0:]` is the whole string). -/
def get_overlap_text (cfg : SemanticChunker) (text : List Char) :
    List Char :=
  if text.length ≤ cfg.chunk_overlap then []
  else
    let ov := if cfg.chunk_overlap = 0 then text
      else text.drop (text.length - cfg.chunk_overlap)
    let ov2 := match find_space ov with
      | some i => if 0 < i then ov.drop (i + 1) else ov
      | none => ov
    if ov2 = [] then [] else "[...] ".data ++ ov2

/-- The body of the `_apply_overlap` loop: prepend the predecessor's
overlap fragment (when nonempty, and both chunks are text) to the current
chunk's content; otherwise leave the chunk as is. -/
def overlapStep {μ : Type} (cfg : SemanticChunker)
    (prev c : DocumentChunk μ) : DocumentChunk μ :=
  if prev.chunk_type = typeText ∧ c.chunk_type = typeText then
    if get_overlap_text cfg prev.content = [] then c
    else { c with
      content := get_overlap_text cfg prev.content ++ '\n' :: '\n' :: c.content }
  else c

/-- The loop of `_apply_overlap`.  The mutation is in place in the
source, so the predecessor seen at step `i` is the chunk as already
updated at step `i - 1`; the functional rendering therefore threads the
updated predecessor through the recursion. -/
def applyOverlapAux {μ : Type} (cfg : SemanticChunker)
    (prev : DocumentChunk μ) :
    List (DocumentChunk μ) → List (DocumentChunk μ)
  | [] => []
  | c :: rest =>
    overlapStep cfg prev c :: applyOverlapAux cfg (overlapStep cfg prev c) rest

/-- `_apply_overlap`. -/
def apply_overlap {μ : Type} (cfg : SemanticChunker)
    (chunks : List (DocumentChunk μ)) : List (DocumentChunk μ) :=
  if cfg.chunk_overlap = 0 ∨ chunks.length ≤ 1 then chunks
  else
    match chunks with
    | [] => []
    | c :: rest => c :: applyOverlapAux cfg c rest

/-! ### Orchestrator (`chunk_document`) -/

/-- The section loop of `chunk_document` before filtering: every
`(content, chunk_type)` piece of every section, tagged with its section's
heading, in emission order. -/
def section_pieces (cfg : SemanticChunker) (blocks : ProtectedBlocks)
    (doc : List Char) : List (List Char × List Char × Option (List Char)) :=
  (split_by_headings doc).flatMap fun sec =>
    (chunk_section cfg sec.content blocks).map fun p => (p.1, p.2, sec.heading)

/-- Index assignment: the running `chunk_index` counter of
`chunk_document`, incremented once per surviving chunk. -/
def number_chunks {μ : Type} (meta : μ) :
    ℕ → List (List Char × List Char × Option (List Char)) →
      List (DocumentChunk μ)
  | _, [] => []
  | i, p :: rest =>
    ⟨pyStrip p.1, i, meta, p.2.2, p.2.1⟩ :: number_chunks meta (i + 1) rest

/-- `chunk_document`: protect, section, assemble, filter by minimum size,
index, overlap. -/
def chunk_document {μ : Type} (cfg : SemanticChunker) (doc : List Char)
    (meta : μ) : List (DocumentChunk μ) :=
  let blocks := extract_protected_blocks cfg doc
  let kept := (section_pieces cfg blocks doc).filter fun p =>
    cfg.min_chunk_size ≤ (pyStrip p.1).length
  apply_overlap cfg (number_chunks meta 0 kept)

/-! ### Predicates and fixtures used by the claims -/

/-- A fragment `f` taken from a predecessor content `t` "splits a word"
(in the sense of the overlap word-boundary claim) when `f` is a nonempty
proper suffix of `t` whose first character and whose preceding character
in `t` are both non-whitespace. -/
def splits_word (t f : List Char) : Prop :=
  f ≠ [] ∧ f.length < t.length ∧ f = t.drop (t.length - f.length) ∧
    pyIsSpace ((t.get? (t.length - f.length - 1)).getD ' ') = false ∧
    pyIsSpace (f.headD ' ') = false

instance (t f : List Char) : Decidable (splits_word t f) := by
  unfold splits_word; infer_instance

/-- A single whitespace-free token (the shape of every oversized piece
the splitter may emit). -/
def is_word (p : List Char) : Bool :=
  !p.isEmpty && p.all fun c => !(pyIsSpace c)

/-- A two-row Markdown table row of 60 characters (so that the whole
table passes the default minimum chunk size). -/
def c2Row : List Char := '|' :: (List.replicate 58 'a' ++ ['|'])

/-- A document consisting of exactly one protected table region: two
rows, each with a trailing newline. -/
def c2Doc : List Char := c2Row ++ '\n' :: c2Row ++ ['\n']

/-! ## Lemmas about `pyStrip` -/

lemma pyStrip_eq_rdropWhile (s : List Char) :
    pyStrip s = List.rdropWhile pyIsSpace (s.dropWhile pyIsSpace) := rfl

lemma dropWhile_head?_not (p : Char → Bool) (l : List Char) (a : Char)
    (h : (l.dropWhile p).head? = some a) : ¬ p a := by
  induction l with
  | nil => simp at h
  | cons c r ih =>
    by_cases hc : p c
    · rw [List.dropWhile_cons_of_pos hc] at h; exact ih h
    · rw [List.dropWhile_cons_of_neg hc] at h
      simp only [List.head?_cons, Option.some.injEq] at h
      rwa [h] at hc

lemma dropWhile_pyStrip (s : List Char) :
    (pyStrip s).dropWhile pyIsSpace = pyStrip s := by
  rw [pyStrip_eq_rdropWhile]
  rcases h : List.rdropWhile pyIsSpace (s.dropWhile pyIsSpace) with _ | ⟨a, t⟩
  · rfl
  · have hpre := List.rdropWhile_prefix pyIsSpace (s.dropWhile pyIsSpace)
    rw [h] at hpre
    rcases hpre with ⟨u, hu⟩
    have ha : ¬ pyIsSpace a := by
      apply dropWhile_head?_not pyIsSpace s
      rw [← hu]; rfl
    simp [List.dropWhile_cons, ha]

lemma pyStrip_idempotent (s : List Char) : pyStrip (pyStrip s) = pyStrip s := by
  rw [pyStrip_eq_rdropWhile (pyStrip s), dropWhile_pyStrip,
    pyStrip_eq_rdropWhile s, List.rdropWhile_idempotent]

lemma pyStrip_getLast_not (s : List Char) (h : pyStrip s ≠ []) :
    ¬ pyIsSpace ((pyStrip s).getLast h) := by
  have := List.rdropWhile_last_not pyIsSpace (s.dropWhile pyIsSpace)
    (by rw [← pyStrip_eq_rdropWhile]; exact h)
  convert this using 2

lemma pyStrip_of_head_getLast (l : List Char) (h : l ≠ [])
    (h1 : ¬ pyIsSpace (l.head h)) (h2 : ¬ pyIsSpace (l.getLast h)) :
    pyStrip l = l := by
  have hd : l.dropWhile pyIsSpace = l := by
    rcases l with _ | ⟨a, t⟩
    · rfl
    · simp only [List.head_cons] at h1
      simp [List.dropWhile_cons, h1]
  rw [pyStrip_eq_rdropWhile, hd]
  exact List.rdropWhile_eq_self_iff.mpr fun _ => h2

/-- Prepending a block that starts with a non-whitespace character to an
already-stripped nonempty tail leaves stripping trivial; this is the shape
produced by the overlap stage (`"[...] " ++ fragment ++ "\n\n" ++ old`). -/
lemma pyStrip_prepend (P old : List Char) (hP : P ≠ [])
    (hPh : ¬ pyIsSpace (P.head hP)) (q : List Char) (hold : old = pyStrip q)
    (hne : old ≠ []) : pyStrip (P ++ old) = P ++ old := by
  have hne2 : P ++ old ≠ [] := by
    intro hc; exact hP (List.append_eq_nil.mp hc).1
  apply pyStrip_of_head_getLast _ hne2
  · rcases P with _ | ⟨a, t⟩
    · exact absurd rfl hP
    · simpa using hPh
  · rw [List.getLast_append_of_ne_nil hne]
    subst hold
    exact pyStrip_getLast_not q hne

lemma pyStrip_prepend_length (P old : List Char) (hP : P ≠ [])
    (hPh : ¬ pyIsSpace (P.head hP)) (q : List Char) (hold : old = pyStrip q) :
    old.length ≤ (pyStrip (P ++ old)).length := by
  rcases eq_or_ne old [] with h | h
  · simp [h]
  · rw [pyStrip_prepend P old hP hPh q hold h]
    simp

/-! ## Structural lemmas about the overlap stitcher -/

section OverlapLemmas

variable {μ : Type} (cfg : SemanticChunker)

/-- One step of the overlap loop never touches a field other than
`content`. -/
lemma overlapStep_field {β : Type} (f : DocumentChunk μ → β)
    (hf : ∀ c x, f { c with content := x } = f c)
    (prev c : DocumentChunk μ) : f (overlapStep cfg prev c) = f c := by
  rw [overlapStep]
  split
  · split
    · rfl
    · exact hf c _
  · rfl

/-- The step leaves a chunk entirely alone unless both it and the
predecessor are text chunks. -/
lemma overlapStep_eq_self {prev c : DocumentChunk μ}
    (h : ¬(prev.chunk_type = typeText ∧ c.chunk_type = typeText)) :
    overlapStep cfg prev c = c := by
  rw [overlapStep, if_neg h]

/-- The step leaves a chunk alone when the predecessor yields no overlap
fragment. -/
lemma overlapStep_eq_self_of_empty {prev c : DocumentChunk μ}
    (h : get_overlap_text cfg prev.content = []) :
    overlapStep cfg prev c = c := by
  rw [overlapStep]
  split
  · simp [h]
  · rfl

/-- A nonempty overlap fragment always starts with the `'['` of the
ellipsis marker. -/
lemma get_overlap_text_shape (cfg : SemanticChunker) (t : List Char) :
    get_overlap_text cfg t = [] ∨
      ∃ r, get_overlap_text cfg t = '[' :: r := by
  simp only [get_overlap_text]
  repeat' split
  all_goals first
    | exact Or.inl rfl
    | exact Or.inr ⟨_, rfl⟩

/-- The step either keeps the content or prepends a nonempty fragment
block starting with `'['`; it never changes the other fields. -/
lemma overlapStep_cases (prev c : DocumentChunk μ) :
    overlapStep cfg prev c = c ∨
      (c.chunk_type = typeText ∧ ∃ ov, (∃ r, ov = '[' :: r) ∧
        overlapStep cfg prev c =
          { c with content := (ov ++ '\n' :: '\n' :: []) ++ c.content }) := by
  rw [overlapStep]
  split
  · rename_i htypes
    split
    · exact Or.inl rfl
    · rename_i hov
      rcases get_overlap_text_shape cfg prev.content with h | ⟨r, hr⟩
      · exact absurd h hov
      · exact Or.inr ⟨htypes.2, get_overlap_text cfg prev.content, ⟨r, hr⟩, by simp⟩
  · exact Or.inl rfl

lemma applyOverlapAux_map_field {β : Type} (f : DocumentChunk μ → β)
    (hf : ∀ c x, f { c with content := x } = f c) :
    ∀ (cs : List (DocumentChunk μ)) (prev : DocumentChunk μ),
      (applyOverlapAux cfg prev cs).map f = cs.map f := by
  intro cs
  induction cs with
  | nil => intro prev; rfl
  | cons c rest ih =>
    intro prev
    rw [applyOverlapAux]
    simp only [List.map_cons]
    rw [overlapStep_field cfg f hf, ih]

lemma apply_overlap_map_field {β : Type} (f : DocumentChunk μ → β)
    (hf : ∀ c x, f { c with content := x } = f c)
    (cs : List (DocumentChunk μ)) :
    (apply_overlap cfg cs).map f = cs.map f := by
  rw [apply_overlap.eq_def]
  split
  · rfl
  · match cs with
    | [] => rfl
    | c :: rest =>
      simp only [List.map_cons]
      rw [applyOverlapAux_map_field cfg f hf]

lemma apply_overlap_length (cs : List (DocumentChunk μ)) :
    (apply_overlap cfg cs).length = cs.length := by
  have := apply_overlap_map_field cfg (fun _ => ()) (fun _ _ => rfl) cs
  calc (apply_overlap cfg cs).length
      = ((apply_overlap cfg cs).map fun _ => ()).length := by simp
    _ = (cs.map fun _ => ()).length := by rw [this]
    _ = cs.length := by simp

/-- Relating a stepped chunk to its original, in the shape needed by the
membership lemma. -/
lemma overlapStep_relates (prev c : DocumentChunk μ) :
    (overlapStep cfg prev c).chunk_index = c.chunk_index ∧
      (overlapStep cfg prev c).metadata = c.metadata ∧
      (overlapStep cfg prev c).heading_context = c.heading_context ∧
      (overlapStep cfg prev c).chunk_type = c.chunk_type ∧
      ((overlapStep cfg prev c).content = c.content ∨
        (c.chunk_type = typeText ∧ ∃ ov, (∃ r, ov = '[' :: r) ∧
          (overlapStep cfg prev c).content =
            (ov ++ '\n' :: '\n' :: []) ++ c.content)) := by
  rcases overlapStep_cases cfg prev c with h | ⟨ht, ov, hov, h⟩
  · rw [h]; exact ⟨rfl, rfl, rfl, rfl, Or.inl rfl⟩
  · rw [h]; exact ⟨rfl, rfl, rfl, rfl, Or.inr ⟨ht, ov, hov, rfl⟩⟩

/-- Every chunk after the overlap loop is an input chunk, either intact
or with a nonempty overlap block prepended to its content (and then it is
a text chunk); every other field is kept. -/
lemma applyOverlapAux_mem (cs : List (DocumentChunk μ)) :
    ∀ (prev : DocumentChunk μ) (c' : DocumentChunk μ),
      c' ∈ applyOverlapAux cfg prev cs →
      ∃ c ∈ cs, c'.chunk_index = c.chunk_index ∧ c'.metadata = c.metadata ∧
        c'.heading_context = c.heading_context ∧
        c'.chunk_type = c.chunk_type ∧
        (c'.content = c.content ∨
          (c.chunk_type = typeText ∧ ∃ ov, (∃ r, ov = '[' :: r) ∧
            c'.content = (ov ++ '\n' :: '\n' :: []) ++ c.content)) := by
  induction cs with
  | nil => intro prev c' h; simp [applyOverlapAux] at h
  | cons c rest ih =>
    intro prev c' h
    rw [applyOverlapAux] at h
    rcases List.mem_cons.mp h with h1 | h2
    · refine ⟨c, List.mem_cons_self c rest, ?_⟩
      subst h1
      exact overlapStep_relates cfg prev c
    · rcases ih _ c' h2 with ⟨c0, hc0, hrest⟩
      exact ⟨c0, List.mem_cons_of_mem c hc0, hrest⟩

lemma apply_overlap_mem (cs : List (DocumentChunk μ)) (c' : DocumentChunk μ)
    (h : c' ∈ apply_overlap cfg cs) :
    ∃ c ∈ cs, c'.chunk_index = c.chunk_index ∧ c'.metadata = c.metadata ∧
      c'.heading_context = c.heading_context ∧
      c'.chunk_type = c.chunk_type ∧
      (c'.content = c.content ∨
        (c.chunk_type = typeText ∧ ∃ ov, (∃ r, ov = '[' :: r) ∧
          c'.content = (ov ++ '\n' :: '\n' :: []) ++ c.content)) := by
  rw [apply_overlap.eq_def] at h
  split at h
  · exact ⟨c', h, rfl, rfl, rfl, rfl, Or.inl rfl⟩
  · match cs, h with
    | c :: rest, h =>
      rcases List.mem_cons.mp h with h1 | h2
      · exact ⟨c, List.mem_cons_self c rest, by subst h1; exact ⟨rfl, rfl, rfl, rfl, Or.inl rfl⟩⟩
      · rcases applyOverlapAux_mem cfg rest c c' h2 with ⟨c0, hc0, hrest⟩
        exact ⟨c0, List.mem_cons_of_mem c hc0, hrest⟩

end OverlapLemmas

/-! ## Lemmas about index assignment and the orchestrator -/

section OrchestratorLemmas

variable {μ : Type} (cfg : SemanticChunker) (meta : μ)

lemma number_chunks_map_index
    (l : List (List Char × List Char × Option (List Char))) :
    ∀ i, (number_chunks meta i l).map (fun c => c.chunk_index) =
      List.range' i l.length := by
  induction l with
  | nil => intro i; rfl
  | cons p rest ih =>
    intro i
    rw [number_chunks]
    simp only [List.map_cons, List.length_cons, List.range'_succ]
    rw [ih]

lemma number_chunks_length
    (l : List (List Char × List Char × Option (List Char))) :
    ∀ i, (number_chunks meta i l).length = l.length := by
  induction l with
  | nil => intro i; rfl
  | cons p rest ih =>
    intro i
    rw [number_chunks]
    simp only [List.length_cons]
    rw [ih]

lemma number_chunks_mem
    (l : List (List Char × List Char × Option (List Char))) :
    ∀ i c, c ∈ number_chunks meta i l →
      ∃ p ∈ l, c.content = pyStrip p.1 ∧ c.chunk_type = p.2.1 ∧
        c.heading_context = p.2.2 ∧ c.metadata = meta := by
  induction l with
  | nil => intro i c h; simp [number_chunks] at h
  | cons p rest ih =>
    intro i c h
    rw [number_chunks] at h
    rcases List.mem_cons.mp h with h1 | h2
    · exact ⟨p, List.mem_cons_self p rest, by subst h1; exact ⟨rfl, rfl, rfl, rfl⟩⟩
    · rcases ih _ c h2 with ⟨p0, hp0, hrest⟩
      exact ⟨p0, List.mem_cons_of_mem p hp0, hrest⟩

/-- Shared helper: every chunk returned by `chunk_document` satisfies the
minimum-size filter, overlap prefixes included. -/
lemma chunk_document_min_size (doc : List Char) (c : DocumentChunk μ)
    (h : c ∈ chunk_document cfg doc meta) :
    cfg.min_chunk_size ≤ (pyStrip c.content).length := by
  rw [chunk_document] at h
  rcases apply_overlap_mem cfg _ c h with
    ⟨c0, hc0, _, _, _, _, hcontent⟩
  rcases number_chunks_mem meta _ _ c0 hc0 with ⟨p, hp, hc0c, _, _, _⟩
  have hmin : cfg.min_chunk_size ≤ (pyStrip p.1).length :=
    of_decide_eq_true ((List.mem_filter.mp hp).2)
  rcases hcontent with he | ⟨_, ov, ⟨r, hr⟩, he⟩
  · rw [he, hc0c, pyStrip_idempotent]
    exact hmin
  · rw [he, hc0c]
    have hlen := pyStrip_prepend_length ((ov ++ '\n' :: '\n' :: []))
      (pyStrip p.1) (by subst hr; simp) (by subst hr; simp [pyIsSpace])
      p.1 rfl
    calc cfg.min_chunk_size ≤ (pyStrip p.1).length := hmin
      _ = (pyStrip (pyStrip p.1)).length := by rw [pyStrip_idempotent]
      _ ≤ _ := by
        have : (pyStrip p.1).length ≤
            (pyStrip ((ov ++ '\n' :: '\n' :: []) ++ pyStrip p.1)).length :=
          hlen
        rw [pyStrip_idempotent]
        exact this

end OrchestratorLemmas

/-! ## Claim theorems -/

/-- C6: for every input document, metadata and configuration, the
`chunk_index` fields of the list returned by `chunk_document` are exactly
`0, 1, ..., n-1` in list order. -/
theorem c6_chunk_indices_contiguous {μ : Type} (cfg : SemanticChunker)
    (doc : List Char) (meta : μ) :
    (chunk_document cfg doc meta).map (fun c => c.chunk_index) =
      List.range (chunk_document cfg doc meta).length := by
  rw [chunk_document]
  rw [apply_overlap_map_field cfg (fun c => c.chunk_index) (fun _ _ => rfl)]
  rw [apply_overlap_length, number_chunks_map_index, number_chunks_length,
    List.range_eq_range']

/-- C7: every chunk returned by `chunk_document` has trimmed content
length at least `min_chunk_size`, also after overlap stitching has
modified chunk contents. -/
theorem c7_min_chunk_size {μ : Type} (cfg : SemanticChunker)
    (doc : List Char) (meta : μ) (c : DocumentChunk μ)
    (h : c ∈ chunk_document cfg doc meta) :
    cfg.min_chunk_size ≤ (pyStrip c.content).length :=
  chunk_document_min_size cfg meta doc c h

/-! ## Lemmas about `find_space` and the overlap fragment -/

lemma find_space_not_mem (l : List Char) (h : find_space l = none) :
    ' ' ∉ l := by
  induction l with
  | nil => simp
  | cons c r ih =>
    rw [find_space] at h
    by_cases hc : c = ' '
    · rw [if_pos hc] at h; exact absurd h (by simp)
    · rw [if_neg hc] at h
      have hr : find_space r = none := by
        rcases hfs : find_space r with _ | j
        · rfl
        · rw [hfs] at h; simp at h
      intro hmem
      rcases List.mem_cons.mp hmem with h1 | h2
      · exact hc h1.symm
      · exact ih hr h2

lemma find_space_get (l : List Char) (i : ℕ) (h : find_space l = some i) :
    l.get? i = some ' ' := by
  induction l generalizing i with
  | nil => simp [find_space] at h
  | cons c r ih =>
    rw [find_space] at h
    by_cases hc : c = ' '
    · rw [if_pos hc] at h
      simp only [Option.some.injEq] at h
      rw [← h, hc]; rfl
    · rw [if_neg hc] at h
      rcases hfs : find_space r with _ | j
      · rw [hfs] at h; simp at h
      · rw [hfs] at h
        have h' : j + 1 = i := Option.some.inj h
        rw [← h']
        simpa using ih j hfs

lemma find_space_lt_length (l : List Char) (i : ℕ)
    (h : find_space l = some i) : i < l.length := by
  have := find_space_get l i h
  exact List.get?_eq_some.mp this |>.1

lemma get_overlap_text_of_short (cfg : SemanticChunker) (t : List Char)
    (h : t.length ≤ cfg.chunk_overlap) : get_overlap_text cfg t = [] := by
  rw [get_overlap_text, if_pos h]

/-- Characterisation of `get_overlap_text` on a long input once the
first-space search of the overlap tail has been resolved. -/
lemma get_overlap_text_of_some (cfg : SemanticChunker) (t : List Char) (i : ℕ)
    (h1 : cfg.chunk_overlap < t.length) (h2 : cfg.chunk_overlap ≠ 0)
    (hfs : find_space (t.drop (t.length - cfg.chunk_overlap)) = some i) :
    get_overlap_text cfg t =
      (if (if 0 < i then (t.drop (t.length - cfg.chunk_overlap)).drop (i + 1)
            else t.drop (t.length - cfg.chunk_overlap)) = [] then []
       else "[...] ".data ++
         (if 0 < i then (t.drop (t.length - cfg.chunk_overlap)).drop (i + 1)
          else t.drop (t.length - cfg.chunk_overlap))) := by
  simp only [get_overlap_text]
  rw [if_neg (not_le.mpr h1), if_neg h2, hfs]

/-! ## Lemmas tracing table chunks back to the scanner -/

section TableLemmas

variable {μ : Type} (cfg : SemanticChunker)

lemma typeText_ne_typeTable : typeText ≠ typeTable := by decide

lemma section_pieces_mem (blocks : ProtectedBlocks) (doc : List Char)
    (p : List Char × List Char × Option (List Char))
    (hp : p ∈ section_pieces cfg blocks doc) :
    ∃ sec ∈ split_by_headings doc,
      (p.1, p.2.1) ∈ chunk_section cfg sec.content blocks ∧
        p.2.2 = sec.heading := by
  rw [section_pieces] at hp
  rcases List.mem_flatMap.mp hp with ⟨sec, hsec, hmem⟩
  rcases List.mem_map.mp hmem with ⟨q, hq, hqe⟩
  exact ⟨sec, hsec, by rw [← hqe]; exact hq, by rw [← hqe]⟩

lemma chunk_section_table_mem (content : List Char)
    (blocks : ProtectedBlocks) (part : List Char)
    (h : (part, typeTable) ∈ chunk_section cfg content blocks) :
    (part, true) ∈ table_parts content := by
  rw [chunk_section] at h
  split at h
  · rcases List.mem_flatMap.mp h with ⟨q, hq, hmem⟩
    rcases q with ⟨qc, qb⟩
    cases qb with
    | false =>
      rw [if_neg (by simp)] at hmem
      rcases List.mem_map.mp hmem with ⟨x, _, hxe⟩
      exact absurd (congrArg Prod.snd hxe) typeText_ne_typeTable
    | true =>
      rw [if_pos rfl] at hmem
      have h' := List.mem_singleton.mp hmem
      have hfst : part = qc := congrArg Prod.fst h'
      rw [hfst]
      exact hq
  · rcases List.mem_map.mp h with ⟨x, _, hxe⟩
    exact absurd (congrArg Prod.snd hxe) typeText_ne_typeTable

end TableLemmas

/-- C2 (amended): every table-type chunk's content is the
whitespace-stripped text of a maximal table-pattern match found inside
the chunk's own section's content (the stripping always removes the
match's trailing newline, so the content is not byte-identical to a
protected region of the scanner; and a region ending at a section
boundary is re-matched inside the section without its final row). -/
theorem c2_amended_table_chunks {μ : Type} (cfg : SemanticChunker)
    (doc : List Char) (meta : μ) (c : DocumentChunk μ)
    (h : c ∈ chunk_document cfg doc meta) (ht : c.chunk_type = typeTable) :
    ∃ sec ∈ split_by_headings doc, ∃ m,
      (m, true) ∈ table_parts sec.content ∧ c.content = pyStrip m := by
  rw [chunk_document] at h
  rcases apply_overlap_mem cfg _ c h with
    ⟨c0, hc0, _, _, _, htype, hcontent⟩
  rcases number_chunks_mem meta _ _ c0 hc0 with ⟨p, hp, hc0c, hc0t, _, _⟩
  have hp2 : p ∈ section_pieces cfg (extract_protected_blocks cfg doc) doc :=
    (List.mem_filter.mp hp).1
  rcases section_pieces_mem cfg _ doc p hp2 with ⟨sec, hsec, hcs, _⟩
  have hptable : p.2.1 = typeTable := by rw [← hc0t, ← htype, ht]
  have hcontent_eq : c.content = c0.content := by
    rcases hcontent with he | ⟨htext, _⟩
    · exact he
    · exact absurd (htype.symm.trans ht) (by rw [htext]; exact typeText_ne_typeTable)
  refine ⟨sec, hsec, p.1, ?_, by rw [hcontent_eq, hc0c]⟩
  apply chunk_section_table_mem cfg sec.content _ p.1
  rw [← hptable]
  exact hcs

set_option maxRecDepth 8000 in
/-- C2 (counterexample): on a document that is exactly one two-row table,
the single returned chunk is a table chunk whose content is the protected
region with its trailing newline stripped — not byte-identical to any
protected table region located by the scanner (here there is exactly
one). -/
theorem c2_counterexample_trailing_newline :
    (chunk_document defaultChunker c2Doc ()).map
        (fun c => (c.content, c.chunk_type)) =
      [(c2Row ++ '\n' :: c2Row, typeTable)] ∧
    (extract_protected_blocks defaultChunker c2Doc).tables = [c2Doc] ∧
    c2Row ++ '\n' :: c2Row ≠ c2Doc := by
  decide

set_option maxRecDepth 8000 in
/-- C2 (witness for the amended claim): the table chunk produced from
`c2Doc` is the stripped text of a table-pattern match of its section. -/
theorem c2_amended_table_chunks_witness :
    ∃ sec ∈ split_by_headings c2Doc, ∃ m,
      (m, true) ∈ table_parts sec.content ∧
      (⟨c2Row ++ '\n' :: c2Row, 0, (), none, typeTable⟩ :
        DocumentChunk Unit).content = pyStrip m :=
  c2_amended_table_chunks defaultChunker c2Doc ()
    ⟨c2Row ++ '\n' :: c2Row, 0, (), none, typeTable⟩ (by decide) (by decide)

/-- C1: the overlap pass reads the predecessor's content as already
updated by the pass, so overlap can cascade.  Concretely, with overlap
size 5, the middle chunk's original content `"cc"` is too short to yield
any fragment (`get_overlap_text` returns `""` on it), yet the third chunk
is prefixed with `"[...] b\n\ncc"`, a fragment computed from the middle
chunk's already-prefixed content — it even contains `'b'` characters
originating in the first chunk. -/
theorem c1_overlap_cascades_at_boundary :
    (apply_overlap ⟨1000, 5, 100, true, true, true⟩
        [⟨"aaaa bb".data, 0, (), none, typeText⟩,
         ⟨"cc".data, 1, (), none, typeText⟩,
         ⟨"dddd".data, 2, (), none, typeText⟩]).map (fun c => c.content) =
      ["aaaa bb".data, "[...] bb\n\ncc".data,
        "[...] b\n\ncc\n\ndddd".data] ∧
    get_overlap_text ⟨1000, 5, 100, true, true, true⟩ "cc".data = [] := by
  decide

/-- C5 (counterexample): with every setting at its default, the input
`"# A\n\nShort text."` (16 characters, below the default minimum chunk
size of 100) yields no chunk at all, not one chunk. -/
theorem c5_counterexample_min_size_filter :
    chunk_document defaultChunker "# A\n\nShort text.".data () =
      ([] : List (DocumentChunk Unit)) := by
  decide

/-- C5 (amended): on `"# A\n\nShort text."` with target size 1000, the
defaults drop the only piece (16 characters < default minimum 100) and
return no chunks; once the minimum chunk size is lowered to at most 16
(here 10), exactly one chunk is returned, of type text, with heading
context `"A"` and content `"# A\n\nShort text."`. -/
theorem c5_amended_scenario {μ : Type} (meta : μ) :
    chunk_document ⟨1000, 150, 10, true, true, true⟩
        "# A\n\nShort text.".data meta =
      [⟨"# A\n\nShort text.".data, 0, meta, some "A".data, typeText⟩] := rfl

set_option maxRecDepth 8000 in
/-- C7 (witness): at the default configuration, the 120-character
single-word document produces a chunk that satisfies the minimum-size
bound. -/
theorem c7_min_chunk_size_witness :
    defaultChunker.min_chunk_size ≤
      (pyStrip (List.replicate 120 'a')).length :=
  c7_min_chunk_size defaultChunker (List.replicate 120 'a') ()
    ⟨List.replicate 120 'a', 0, (), none, typeText⟩ (by decide)

/-- C3 (counterexample): when the predecessor's overlap tail contains no
space at all, `_get_overlap_text` uses the raw tail, which here begins in
the middle of the 8-character word `"bbbbbbbb"`: with overlap size 5 the
second chunk is prefixed with `"[...] bbbbb"` and `splits_word` holds for
the fragment against the predecessor's content. -/
theorem c3_counterexample_no_space_tail :
    (apply_overlap ⟨1000, 5, 100, true, true, true⟩
        [⟨"aa bbbbbbbb".data, 0, (), none, typeText⟩,
         ⟨"cc".data, 1, (), none, typeText⟩]).map (fun c => c.content) =
      ["aa bbbbbbbb".data, "[...] bbbbb\n\ncc".data] ∧
    splits_word "aa bbbbbbbb".data "bbbbb".data := by
  decide

/-- C3 (amended): whenever the predecessor's trailing `chunk_overlap`
characters contain a space, the overlap fragment (after the ellipsis
marker) never splits a word — it is either absent or begins right after a
space of the tail (or is the whole tail beginning with its leading
space); only a tail with no space at all can be used raw and begin
mid-word. -/
theorem c3_amended_word_boundary (cfg : SemanticChunker) (t : List Char)
    (h1 : cfg.chunk_overlap < t.length) (h2 : cfg.chunk_overlap ≠ 0)
    (h3 : ' ' ∈ t.drop (t.length - cfg.chunk_overlap)) :
    get_overlap_text cfg t = [] ∨
      ∃ f, get_overlap_text cfg t = "[...] ".data ++ f ∧
        ¬ splits_word t f := by
  rcases hfs : find_space (t.drop (t.length - cfg.chunk_overlap)) with _ | i
  · exact absurd h3 (find_space_not_mem _ hfs)
  have hovlen : (t.drop (t.length - cfg.chunk_overlap)).length =
      cfg.chunk_overlap := by
    rw [List.length_drop]; omega
  have hik : i < cfg.chunk_overlap := by
    have := find_space_lt_length _ i hfs
    rwa [hovlen] at this
  rw [get_overlap_text_of_some cfg t i h1 h2 hfs]
  by_cases hi : 0 < i
  · rw [if_pos hi]
    by_cases hnil : (t.drop (t.length - cfg.chunk_overlap)).drop (i + 1) = []
    · rw [if_pos hnil]; exact Or.inl rfl
    · rw [if_neg hnil]
      refine Or.inr ⟨_, rfl, ?_⟩
      rintro ⟨hne, hlt, hsuf, hprev, hhead⟩
      have hflen : ((t.drop (t.length - cfg.chunk_overlap)).drop (i + 1)).length =
          cfg.chunk_overlap - (i + 1) := by
        rw [List.length_drop, hovlen]
      have hidx : t.length -
          ((t.drop (t.length - cfg.chunk_overlap)).drop (i + 1)).length - 1 =
          (t.length - cfg.chunk_overlap) + i := by
        rw [hflen]; omega
      have hget : t.get? ((t.length - cfg.chunk_overlap) + i) = some ' ' := by
        rw [← List.get?_drop]
        exact find_space_get _ i hfs
      rw [hidx, hget] at hprev
      simp [pyIsSpace] at hprev
  · rw [if_neg hi]
    have hi0 : i = 0 := Nat.eq_zero_of_not_pos hi
    by_cases hnil : t.drop (t.length - cfg.chunk_overlap) = []
    · rw [if_pos hnil]; exact Or.inl rfl
    · rw [if_neg hnil]
      refine Or.inr ⟨_, rfl, ?_⟩
      rintro ⟨hne, hlt, hsuf, hprev, hhead⟩
      rcases hc : t.drop (t.length - cfg.chunk_overlap) with _ | ⟨c, r⟩
      · exact hnil hc
      · have hg := find_space_get _ i hfs
        rw [hi0, hc] at hg
        have hcsp : c = ' ' := by simpa using hg
        rw [hc, hcsp] at hhead
        simp [pyIsSpace] at hhead

/-- The overlap loop is the identity on a chunk list whose contents all
fit inside the overlap size (each predecessor then yields an empty
fragment, and since nothing changes, no cascading can start). -/
lemma applyOverlapAux_id {μ : Type} (cfg : SemanticChunker)
    (cs : List (DocumentChunk μ)) :
    ∀ prev : DocumentChunk μ,
      (∀ c ∈ cs, c.content.length ≤ cfg.chunk_overlap) →
      prev.content.length ≤ cfg.chunk_overlap →
      applyOverlapAux cfg prev cs = cs := by
  induction cs with
  | nil => intro prev _ _; rfl
  | cons c rest ih =>
    intro prev hall hprev
    rw [applyOverlapAux]
    have hstep : overlapStep cfg prev c = c :=
      overlapStep_eq_self_of_empty cfg
        (get_overlap_text_of_short cfg prev.content hprev)
    rw [hstep, ih c (fun d hd => hall d (List.mem_cons_of_mem c hd))
      (hall c (List.mem_cons_self c rest))]

/-- C4 (amended): a degenerate configuration never raises (the engine is
total), but a minimum chunk size larger than the target size does NOT
disable the minimum-size filter: the filter applies as usual, so every
returned chunk still satisfies it and well-formed input may yield no
chunks at all.  And when the overlap is at least the chunk size, the
overlap stage leaves any chunk list whose contents are within the overlap
size (as all pre-overlap text pieces are, barring oversized atomic words)
entirely unchanged. -/
theorem c4_amended_degenerate_config :
    (∀ (μ : Type) (cfg : SemanticChunker) (doc : List Char) (meta : μ)
      (c : DocumentChunk μ), cfg.chunk_size < cfg.min_chunk_size →
        c ∈ chunk_document cfg doc meta →
        cfg.min_chunk_size ≤ (pyStrip c.content).length) ∧
    (∀ (μ : Type) (cfg : SemanticChunker) (cs : List (DocumentChunk μ)),
      (∀ c ∈ cs, c.content.length ≤ cfg.chunk_overlap) →
      apply_overlap cfg cs = cs) := by
  constructor
  · intro μ cfg doc meta c _ hmem
    exact chunk_document_min_size cfg meta doc c hmem
  · intro μ cfg cs hall
    rw [apply_overlap.eq_def]
    split
    · rfl
    · match cs, hall with
      | [], _ => rfl
      | c :: rest, hall =>
        simp only []
        rw [applyOverlapAux_id cfg rest c
          (fun d hd => hall d (List.mem_cons_of_mem c hd))
          (hall c (List.mem_cons_self c rest))]

set_option maxRecDepth 8000 in
/-- C4 (witness for the amended claim): the filter conjunct applied to a
surviving oversized-word chunk under `min_chunk_size 100 > chunk_size 10`,
and the overlap conjunct applied to two short text chunks under
`chunk_overlap 150 ≥ chunk_size 10`. -/
theorem c4_amended_degenerate_config_witness :
    (100 : ℕ) ≤ (pyStrip (List.replicate 120 'a')).length ∧
      apply_overlap ⟨10, 150, 0, true, true, true⟩
        [(⟨"ab".data, 0, (), none, typeText⟩ : DocumentChunk Unit),
         ⟨"cd".data, 1, (), none, typeText⟩] =
        [⟨"ab".data, 0, (), none, typeText⟩,
         ⟨"cd".data, 1, (), none, typeText⟩] :=
  ⟨c4_amended_degenerate_config.1 Unit ⟨10, 150, 100, true, true, true⟩
      (List.replicate 120 'a') ()
      ⟨List.replicate 120 'a', 0, (), none, typeText⟩ (by decide) (by decide),
    c4_amended_degenerate_config.2 Unit ⟨10, 150, 0, true, true, true⟩ _
      (by decide)⟩

/-- C4 (counterexample): with `chunk_size 10` and `min_chunk_size 100`
the minimum-size filter is not disabled — the well-formed input
`"aaaa bbbb cccc"` yields no chunks at all, while without the degenerate
constraint (minimum 0) the same input yields two chunks. -/
theorem c4_counterexample_filter_not_disabled :
    chunk_document ⟨10, 150, 100, true, true, true⟩
        "aaaa bbbb cccc".data () = [] ∧
      (chunk_document ⟨10, 150, 0, true, true, true⟩
          "aaaa bbbb cccc".data ()).map (fun c => c.content) =
        ["aaaa bbbb".data, "cccc".data] := by
  decide

/-- C3 (witness for the amended claim): a tail with a space, at overlap
size 5. -/
theorem c3_amended_word_boundary_witness :
    get_overlap_text ⟨1000, 5, 100, true, true, true⟩ "aaa bb cc".data = [] ∨
      ∃ f, get_overlap_text ⟨1000, 5, 100, true, true, true⟩
          "aaa bb cc".data = "[...] ".data ++ f ∧
        ¬ splits_word "aaa bb cc".data f :=
  c3_amended_word_boundary ⟨1000, 5, 100, true, true, true⟩
    "aaa bb cc".data (by decide) (by decide) (by decide)


/-! ## Lemmas for section reconstruction (C9) -/

lemma splitLines_ne_nil (s : List Char) : splitLines s ≠ [] := by
  induction s with
  | nil => simp [splitLines]
  | cons c r ih =>
    by_cases hc : c = '\n'
    · subst hc; simp [splitLines]
    · rw [splitLines.eq_def]
      rcases hg : splitLines r with _ | ⟨g, gs⟩
      · exact absurd hg ih
      · simp [hc, hg]

lemma joinNL_cons_ne (a : List Char) (M : List (List Char)) (h : M ≠ []) :
    joinNL (a :: M) = a ++ '\n' :: joinNL M := by
  rcases M with _ | ⟨b, M'⟩
  · exact absurd rfl h
  · rfl

lemma joinNL_cons_head (c : Char) (g : List Char) (gs : List (List Char)) :
    joinNL ((c :: g) :: gs) = c :: joinNL (g :: gs) := by
  rcases gs with _ | ⟨b, gs'⟩
  · rfl
  · rfl

lemma joinNL_splitLines (s : List Char) : joinNL (splitLines s) = s := by
  induction s with
  | nil => rfl
  | cons c r ih =>
    by_cases hc : c = '\n'
    · subst hc
      rw [splitLines, joinNL_cons_ne _ _ (splitLines_ne_nil r), ih]
      rfl
    · rw [splitLines.eq_def]
      rcases hg : splitLines r with _ | ⟨g, gs⟩
      · exact absurd hg (splitLines_ne_nil r)
      · simp only [hc, hg]
        rw [hg] at ih
        rw [joinNL_cons_head, ih]

lemma joinNL_append (xs ys : List (List Char)) (hx : xs ≠ []) (hy : ys ≠ []) :
    joinNL (xs ++ ys) = joinNL xs ++ '\n' :: joinNL ys := by
  induction xs with
  | nil => exact absurd rfl hx
  | cons x xs' ih =>
    rcases xs' with _ | ⟨x', xs''⟩
    · rw [List.singleton_append, joinNL_cons_ne _ _ hy]
      rfl
    · rw [List.cons_append, joinNL_cons_ne _ _ (by simp),
        joinNL_cons_ne _ _ (by simp), ih (by simp), List.append_assoc]
      rfl

lemma sbhAux_ne_nil (lines : List (List Char)) :
    ∀ curH curC, curC ≠ [] → sbhAux curH curC lines ≠ [] := by
  induction lines with
  | nil => intro curH curC h; simp [sbhAux, h]
  | cons line rest ih =>
    intro curH curC h
    rw [sbhAux]
    rcases hm : headingMatch line with _ | g
    · exact ih curH (curC ++ [line]) (by simp)
    · simp only [if_neg h]
      simp

/-- The sections accumulated by the sectioner loop carry, in order, every
line it was given: their contents joined by newlines are the joined
lines. -/
lemma sbhAux_join (lines : List (List Char)) :
    ∀ curH curC, curC ≠ [] →
      joinNL ((sbhAux curH curC lines).map (fun sec => sec.content)) =
        joinNL (curC ++ lines) := by
  induction lines with
  | nil =>
    intro curH curC h
    rw [sbhAux, if_neg h]
    simp only [List.map_cons, List.map_nil, List.append_nil]
    rfl
  | cons line rest ih =>
    intro curH curC h
    rw [sbhAux]
    rcases hm : headingMatch line with _ | g
    · rw [ih curH (curC ++ [line]) (by simp), List.append_assoc]
      rfl
    · rw [if_neg h]
      simp only [List.singleton_append, List.map_cons]
      rw [joinNL_cons_ne _ _
        (by
          intro hmap
          exact sbhAux_ne_nil rest (some (pyStrip g)) [line] (by simp)
            (List.map_eq_nil_iff.mp hmap)),
        ih (some (pyStrip g)) [line] (by simp),
        joinNL_append curC (line :: rest) h (by simp)]
      rfl

/-- C9: the heading sectioner neither drops nor reorders any original
character — joining the returned sections' contents with a newline
reconstructs the input text exactly. -/
theorem c9_sections_reconstruct (content : List Char) :
    joinNL ((split_by_headings content).map (fun sec => sec.content)) =
      content := by
  rw [split_by_headings]
  have hne : splitLines content ≠ [] := splitLines_ne_nil content
  rcases hl : splitLines content with _ | ⟨line, rest⟩
  · exact absurd hl hne
  · have hstart : joinNL ((sbhAux none [] (line :: rest)).map
        (fun sec => sec.content)) = joinNL (line :: rest) := by
      rw [sbhAux]
      rcases hm : headingMatch line with _ | g
      · exact sbhAux_join rest none [line] (by simp)
      · simp only [if_pos rfl, List.nil_append]
        exact sbhAux_join rest (some (pyStrip g)) [line] (by simp)
    have hnn : sbhAux none [] (line :: rest) ≠ [] := by
      rw [sbhAux]
      rcases hm : headingMatch line with _ | g
      · exact sbhAux_ne_nil rest none [line] (by simp)
      · simp only [if_pos rfl, List.nil_append]
        exact sbhAux_ne_nil rest (some (pyStrip g)) [line] (by simp)
    rw [if_neg hnn, hstart, ← hl, joinNL_splitLines]


/-! ## Frame lemmas for the overlap stage (C10) -/

lemma overlapStep_chunk_type {μ : Type} (cfg : SemanticChunker)
    (prev c : DocumentChunk μ) :
    (overlapStep cfg prev c).chunk_type = c.chunk_type :=
  overlapStep_field cfg (fun c => c.chunk_type) (fun _ _ => rfl) prev c

lemma applyOverlapAux_get_self {μ : Type} (cfg : SemanticChunker) :
    ∀ (cs : List (DocumentChunk μ)) (prev : DocumentChunk μ) (i : ℕ)
      (c : DocumentChunk μ), cs.get? i = some c → c.chunk_type ≠ typeText →
      (applyOverlapAux cfg prev cs).get? i = some c := by
  intro cs
  induction cs with
  | nil => intro prev i c h _; simp at h
  | cons c0 rest ih =>
    intro prev i c h hne
    rw [applyOverlapAux]
    cases i with
    | zero =>
      have hc : c0 = c := by simpa using h
      subst hc
      have hstep : overlapStep cfg prev c0 = c0 :=
        overlapStep_eq_self cfg (fun hand => hne hand.2)
      simp [hstep]
    | succ j =>
      simp only [List.get?_cons_succ] at h ⊢
      exact ih _ j c h hne

lemma applyOverlapAux_get_after {μ : Type} (cfg : SemanticChunker) :
    ∀ (cs : List (DocumentChunk μ)) (prev : DocumentChunk μ) (i : ℕ)
      (c d : DocumentChunk μ), cs.get? i = some d →
      cs.get? (i + 1) = some c → d.chunk_type ≠ typeText →
      (applyOverlapAux cfg prev cs).get? (i + 1) = some c := by
  intro cs
  induction cs with
  | nil => intro prev i c d h _ _; simp at h
  | cons c0 rest ih =>
    intro prev i c d h hc hne
    rw [applyOverlapAux]
    cases i with
    | zero =>
      have hd : c0 = d := by simpa using h
      subst hd
      simp only [List.get?_cons_succ] at hc ⊢
      rcases rest with _ | ⟨c1, rest'⟩
      · simp at hc
      · have hc1 : c1 = c := by simpa using hc
        subst hc1
        rw [applyOverlapAux]
        have htype : (overlapStep cfg prev c0).chunk_type = c0.chunk_type :=
          overlapStep_chunk_type cfg prev c0
        have hstep : overlapStep cfg (overlapStep cfg prev c0) c1 = c1 :=
          overlapStep_eq_self cfg (fun hand => hne (htype ▸ hand.1))
        simp [hstep]
    | succ j =>
      simp only [List.get?_cons_succ] at h hc ⊢
      exact ih _ j c d h hc hne

/-- C10: overlap stitching modifies only the `content` field — the
returned list has the same length, every chunk keeps its `chunk_index`,
`metadata`, `heading_context` and `chunk_type`, and moreover a chunk of
type other than text, the first chunk, and any chunk whose predecessor is
not of type text keep even their content unchanged. -/
theorem c10_overlap_frame {μ : Type} (cfg : SemanticChunker)
    (cs : List (DocumentChunk μ)) :
    (apply_overlap cfg cs).length = cs.length ∧
    (∀ i, ((apply_overlap cfg cs).get? i).map (fun c => c.chunk_index) =
      (cs.get? i).map (fun c => c.chunk_index)) ∧
    (∀ i, ((apply_overlap cfg cs).get? i).map (fun c => c.metadata) =
      (cs.get? i).map (fun c => c.metadata)) ∧
    (∀ i, ((apply_overlap cfg cs).get? i).map (fun c => c.heading_context) =
      (cs.get? i).map (fun c => c.heading_context)) ∧
    (∀ i, ((apply_overlap cfg cs).get? i).map (fun c => c.chunk_type) =
      (cs.get? i).map (fun c => c.chunk_type)) ∧
    (∀ i c, cs.get? i = some c → c.chunk_type ≠ typeText →
      (apply_overlap cfg cs).get? i = some c) ∧
    (∀ c cs', cs = c :: cs' → (apply_overlap cfg cs).get? 0 = some c) ∧
    (∀ i c d, cs.get? i = some d → cs.get? (i + 1) = some c →
      d.chunk_type ≠ typeText →
      (apply_overlap cfg cs).get? (i + 1) = some c) := by
  have hfield : ∀ (β : Type) (f : DocumentChunk μ → β),
      (∀ c x, f { c with content := x } = f c) →
      ∀ i, ((apply_overlap cfg cs).get? i).map f = (cs.get? i).map f := by
    intro β f hf i
    rw [← List.get?_map, ← List.get?_map, apply_overlap_map_field cfg f hf]
  refine ⟨apply_overlap_length cfg cs,
    hfield _ _ (fun _ _ => rfl), hfield _ _ (fun _ _ => rfl),
    hfield _ _ (fun _ _ => rfl), hfield _ _ (fun _ _ => rfl), ?_, ?_, ?_⟩
  · intro i c h hne
    rw [apply_overlap.eq_def]
    split
    · exact h
    · match cs, h with
      | c0 :: rest, h =>
        cases i with
        | zero =>
          have : c0 = c := by simpa using h
          simp [this]
        | succ j =>
          simp only [List.get?_cons_succ] at h ⊢
          exact applyOverlapAux_get_self cfg rest c0 j c h hne
  · intro c cs' hcs
    subst hcs
    rw [apply_overlap.eq_def]
    split
    · rfl
    · rfl
  · intro i c d h hc hne
    rw [apply_overlap.eq_def]
    split
    · exact hc
    · match cs, h, hc with
      | c0 :: rest, h, hc =>
        cases i with
        | zero =>
          have hd : c0 = d := by simpa using h
          subst hd
          simp only [List.get?_cons_succ] at hc ⊢
          rcases rest with _ | ⟨c1, rest'⟩
          · simp at hc
          · have hc1 : c1 = c := by simpa using hc
            subst hc1
            rw [applyOverlapAux]
            have hstep : overlapStep cfg c0 c1 = c1 :=
              overlapStep_eq_self cfg (fun hand => hne hand.1)
            simp [hstep]
        | succ j =>
          simp only [List.get?_cons_succ] at h hc ⊢
          exact applyOverlapAux_get_after cfg rest c0 j c d h hc hne

/-- C10 (witness): a table chunk followed by a text chunk, at the default
overlap size — both keep their content, the first by position and the
second because its predecessor is not text. -/
theorem c10_overlap_frame_witness :
    (apply_overlap defaultChunker
      [(⟨"|a|".data, 0, (), none, typeTable⟩ : DocumentChunk Unit),
       ⟨"hello".data, 1, (), none, typeText⟩]).length = 2 ∧
    (apply_overlap defaultChunker
      [(⟨"|a|".data, 0, (), none, typeTable⟩ : DocumentChunk Unit),
       ⟨"hello".data, 1, (), none, typeText⟩]).get? 0 =
      some ⟨"|a|".data, 0, (), none, typeTable⟩ ∧
    (apply_overlap defaultChunker
      [(⟨"|a|".data, 0, (), none, typeTable⟩ : DocumentChunk Unit),
       ⟨"hello".data, 1, (), none, typeText⟩]).get? 1 =
      some ⟨"hello".data, 1, (), none, typeText⟩ :=
  ⟨(c10_overlap_frame defaultChunker _).1,
    (c10_overlap_frame defaultChunker _).2.2.2.2.2.2.1
      ⟨"|a|".data, 0, (), none, typeTable⟩
      [⟨"hello".data, 1, (), none, typeText⟩] rfl,
    (c10_overlap_frame defaultChunker _).2.2.2.2.2.2.2 0
      ⟨"hello".data, 1, (), none, typeText⟩
      ⟨"|a|".data, 0, (), none, typeTable⟩ (by decide) (by decide)
      (by decide)⟩

/-! ## Lemmas for the size-bounded splitter (C8) -/

lemma wsWords_words :
    ∀ (l : List Char) (cur : List Char),
      (∀ c ∈ cur, pyIsSpace c = false) →
      ∀ w ∈ wsWords cur l, is_word w = true := by
  intro l
  induction l with
  | nil =>
    intro cur hcur w hw
    rw [wsWords] at hw
    split at hw
    · simp at hw
    · rename_i hne
      have hwc : w = cur.reverse := by simpa using hw
      subst hwc
      simp only [is_word, Bool.and_eq_true, List.all_eq_true]
      constructor
      · simpa using hne
      · intro c hc
        simp [hcur c (List.mem_reverse.mp hc)]
  | cons c r ih =>
    intro cur hcur w hw
    rw [wsWords] at hw
    by_cases hc : pyIsSpace c
    · rw [if_pos hc] at hw
      split at hw
      · exact ih [] (by simp) w hw
      · rename_i hne
        rcases List.mem_cons.mp hw with h1 | h2
        · subst h1
          simp only [is_word, Bool.and_eq_true, List.all_eq_true]
          constructor
          · simpa using hne
          · intro d hd
            simp [hcur d (List.mem_reverse.mp hd)]
        · exact ih [] (by simp) w h2
    · rw [if_neg hc] at hw
      refine ih (c :: cur) ?_ w hw
      intro d hd
      rcases List.mem_cons.mp hd with h1 | h2
      · subst h1; simpa using hc
      · exact hcur d h2

lemma pySplitWs_words (s : List Char) :
    ∀ w ∈ pySplitWs s, is_word w = true :=
  wsWords_words s [] (by simp)

lemma word_pack_ok (cfg : SemanticChunker) :
    ∀ (ws : List (List Char)) (cur : List Char),
      (∀ w ∈ ws, is_word w = true) →
      (cur = [] ∨ (cur.length ≤ cfg.chunk_size ∨ is_word cur = true)) →
      (∀ p ∈ (word_pack cfg ws cur).1,
        p.length ≤ cfg.chunk_size ∨ is_word p = true) ∧
      ((word_pack cfg ws cur).2 = [] ∨
        ((word_pack cfg ws cur).2.length ≤ cfg.chunk_size ∨
          is_word (word_pack cfg ws cur).2 = true)) := by
  intro ws
  induction ws with
  | nil =>
    intro cur hws hcur
    rw [word_pack]
    exact ⟨by intro p hp; simp at hp, hcur⟩
  | cons w rest ih =>
    intro cur hws hcur
    rw [word_pack]
    have hw : is_word w = true := hws w (List.mem_cons_self w rest)
    have hrest : ∀ v ∈ rest, is_word v = true :=
      fun v hv => hws v (List.mem_cons_of_mem w hv)
    split
    · rename_i hfit
      refine ih _ hrest (Or.inr ?_)
      split
      · exact Or.inr hw
      · rename_i hne
        left
        simp only [List.length_append, List.length_cons]
        omega
    · rename_i hnofit
      have := ih w hrest (Or.inr (Or.inr hw))
      constructor
      · intro p hp
        simp only [] at hp
        rcases List.mem_append.mp hp with h1 | h2
        · rcases hcur with hnil | hok
          · rw [if_pos hnil] at h1; simp at h1
          · split at h1
            · simp at h1
            · have : p = cur := by simpa using h1
              subst this; exact hok
        · exact this.1 p h2
      · exact this.2

lemma sentLoop_ok (cfg : SemanticChunker) :
    ∀ (ss : List (List Char)) (cur : List Char),
      (cur = [] ∨ (cur.length ≤ cfg.chunk_size ∨ is_word cur = true)) →
      ∀ p ∈ sentLoop cfg ss cur,
        p.length ≤ cfg.chunk_size ∨ is_word p = true := by
  intro ss
  induction ss with
  | nil =>
    intro cur hcur p hp
    rw [sentLoop] at hp
    split at hp
    · simp at hp
    · rename_i hne
      have : p = cur := by simpa using hp
      subst this
      rcases hcur with h | h
      · exact absurd h hne
      · exact h
  | cons s rest ih =>
    intro cur hcur p hp
    rw [sentLoop] at hp
    have hword : ∀ q ∈ (if cfg.chunk_size < s.length then
        (word_pack cfg (pySplitWs s) []).1 ++
          sentLoop cfg rest (word_pack cfg (pySplitWs s) []).2
        else sentLoop cfg rest s),
        q.length ≤ cfg.chunk_size ∨ is_word q = true := by
      intro q hq
      split at hq
      · rename_i hbig
        have hwp := word_pack_ok cfg (pySplitWs s) []
          (pySplitWs_words s) (Or.inl rfl)
        rcases List.mem_append.mp hq with h3 | h4
        · exact hwp.1 q h3
        · exact ih _ hwp.2 q h4
      · rename_i hsmall
        exact ih s (Or.inr (Or.inl (by omega))) q hq
    split at hp
    · rename_i hnil
      split at hp
      · rename_i hfit
        exact ih s (Or.inr (Or.inl hfit)) p hp
      · rw [List.nil_append] at hp
        exact hword p hp
    · rename_i hnnil
      split at hp
      · rename_i hfit
        refine ih _ (Or.inr (Or.inl ?_)) p hp
        exact hfit
      · rcases List.mem_append.mp hp with h1 | h2
        · have : p = cur := by simpa using h1
          subst this
          rcases hcur with h | h
          · exact absurd h hnnil
          · exact h
        · exact hword p h2

lemma split_by_sentences_ok (cfg : SemanticChunker) (t : List Char) :
    ∀ p ∈ split_by_sentences cfg t,
      p.length ≤ cfg.chunk_size ∨ is_word p = true :=
  sentLoop_ok cfg (sentence_split t) [] (Or.inl rfl)

lemma getLastD_nil_or_mem (l : List (List Char)) :
    l.getLastD [] = [] ∨ l.getLastD [] ∈ l := by
  rcases l with _ | ⟨a, l'⟩
  · exact Or.inl rfl
  · right
    rw [List.getLastD_eq_getLast?, List.getLast?_eq_getLast _ (by simp)]
    simp only [Option.getD_some]
    exact List.getLast_mem _

lemma chunkTextLoop_ok (cfg : SemanticChunker) :
    ∀ (paras : List (List Char)) (cur : List Char),
      (cur = [] ∨ (cur.length ≤ cfg.chunk_size ∨ is_word cur = true)) →
      ∀ p ∈ chunkTextLoop cfg paras cur,
        p.length ≤ cfg.chunk_size ∨ is_word p = true := by
  intro paras
  induction paras with
  | nil =>
    intro cur hcur p hp
    rw [chunkTextLoop] at hp
    split at hp
    · simp at hp
    · rename_i hne
      have : p = cur := by simpa using hp
      subst this
      rcases hcur with h | h
      · exact absurd h hne
      · exact h
  | cons para rest ih =>
    intro cur hcur p hp
    have hlast : (split_by_sentences cfg (pyStrip para)).getLastD [] = [] ∨
        (((split_by_sentences cfg (pyStrip para)).getLastD []).length ≤
            cfg.chunk_size ∨
          is_word ((split_by_sentences cfg (pyStrip para)).getLastD []) =
            true) := by
      rcases getLastD_nil_or_mem
        (split_by_sentences cfg (pyStrip para)) with h | h
      · exact Or.inl h
      · exact Or.inr (split_by_sentences_ok cfg (pyStrip para) _ h)
    have hdrop : ∀ q ∈ (split_by_sentences cfg (pyStrip para)).dropLast ++
        chunkTextLoop cfg rest
          ((split_by_sentences cfg (pyStrip para)).getLastD []),
        q.length ≤ cfg.chunk_size ∨ is_word q = true := by
      intro q hq
      rcases List.mem_append.mp hq with h3 | h4
      · exact split_by_sentences_ok cfg (pyStrip para) q
          ((List.dropLast_prefix _).subset h3)
      · exact ih _ hlast q h4
    rw [chunkTextLoop] at hp
    split at hp
    · exact ih cur hcur p hp
    · rename_i hstrip
      split at hp
      · rename_i hnil
        split at hp
        · rename_i hbig
          have hp' : p ∈ (if (pyStrip para).length ≤ cfg.chunk_size
              then chunkTextLoop cfg rest (pyStrip para)
              else [] ++ ((split_by_sentences cfg (pyStrip para)).dropLast ++
                chunkTextLoop cfg rest
                  ((split_by_sentences cfg (pyStrip para)).getLastD []))) := hp
          rw [if_neg (by omega), List.nil_append] at hp'
          exact hdrop p hp'
        · rename_i hsmall
          have hp' : p ∈ (if (pyStrip para).length ≤ cfg.chunk_size
              then chunkTextLoop cfg rest (pyStrip para)
              else [] ++ chunkTextLoop cfg rest (pyStrip para)) := hp
          rw [if_pos (by omega)] at hp'
          exact ih _ (Or.inr (Or.inl (by omega))) p hp'
      · rename_i hnnil
        have hcurok : p = cur →
            p.length ≤ cfg.chunk_size ∨ is_word p = true := by
          intro he
          subst he
          rcases hcur with h | h
          · exact absurd h hnnil
          · exact h
        split at hp
        · rename_i hbig
          have hp' : p ∈ (if (cur ++ '\n' :: '\n' :: pyStrip para).length ≤
                cfg.chunk_size
              then chunkTextLoop cfg rest (cur ++ '\n' :: '\n' :: pyStrip para)
              else [cur] ++ ((split_by_sentences cfg (pyStrip para)).dropLast ++
                chunkTextLoop cfg rest
                  ((split_by_sentences cfg (pyStrip para)).getLastD []))) := hp
          split at hp'
          · rename_i hfit
            exact ih _ (Or.inr (Or.inl hfit)) p hp'
          · rcases List.mem_append.mp hp' with h1 | h2
            · exact hcurok (by simpa using h1)
            · exact hdrop p h2
        · rename_i hsmall
          have hp' : p ∈ (if (cur ++ '\n' :: '\n' :: pyStrip para).length ≤
                cfg.chunk_size
              then chunkTextLoop cfg rest (cur ++ '\n' :: '\n' :: pyStrip para)
              else [cur] ++ chunkTextLoop cfg rest (pyStrip para)) := hp
          split at hp'
          · rename_i hfit
            exact ih _ (Or.inr (Or.inl hfit)) p hp'
          · rcases List.mem_append.mp hp' with h1 | h2
            · exact hcurok (by simpa using h1)
            · exact ih _ (Or.inr (Or.inl (by omega))) p h2

/-- C8: every piece produced by the size-bounded text splitter (before
overlap) has length at most the target chunk size, except a piece that is
a single atomic whitespace-free word which itself exceeds the target and
is emitted alone. -/
theorem c8_size_bound (cfg : SemanticChunker) (text : List Char) (p : List Char)
    (hp : p ∈ chunk_text cfg text) :
    p.length ≤ cfg.chunk_size ∨
      (cfg.chunk_size < p.length ∧ is_word p = true) := by
  have hok : p.length ≤ cfg.chunk_size ∨ is_word p = true := by
    rw [chunk_text] at hp
    split at hp
    · rename_i hshort
      split at hp
      · simp at hp
      · have : p = text := by simpa using hp
        subst this
        exact Or.inl hshort
    · exact chunkTextLoop_ok cfg (splitOnNN text) [] (Or.inl rfl) p hp
  rcases hok with h | h
  · exact Or.inl h
  · by_cases hlen : p.length ≤ cfg.chunk_size
    · exact Or.inl hlen
    · exact Or.inr ⟨by omega, h⟩


/-- C8 (witness): at target size 10, the splitter's output piece
`"aaaa bbbb"` satisfies the bound. -/
theorem c8_size_bound_witness :
    ("aaaa bbbb".data).length ≤ 10 ∨
      (10 < ("aaaa bbbb".data).length ∧ is_word "aaaa bbbb".data = true) :=
  c8_size_bound ⟨10, 150, 0, true, true, true⟩ "aaaa bbbb cccc".data
    "aaaa bbbb".data (by decide)

end Chunker
